import Mathlib

/-!
Verification of the deterministic find engine of the inspect_ai transcript
viewer (`src/inspect_ai/_view/www/src`).

The engine is pure TypeScript over JS strings; we embed JS strings as
`List Char`.  `String.prototype.toLowerCase` is modelled per character by
`Char.toLower` (the Unicode special casings that change string length are not
used by the viewer's data).  The JS `while ((pos = text.indexOf(term, pos)) !== -1)`
loops of `countMatches` / `findNthMatch` (MarkdownDiv.tsx) do not terminate for
the empty term, so they are embedded with explicit fuel returning `Option`:
`none` models divergence, and we prove the fuel is never exhausted for a
non-empty term.
-/

namespace InspectFind

/-- JS `s.toLowerCase()`, per character. -/
def jsToLower (s : List Char) : List Char := s.map Char.toLower

/-- Does `pat` occur at the very start of `text`?  (The prefix test used by
`String.prototype.indexOf`; written out to keep the development elementary.) -/
def matchHere : List Char → List Char → Bool
  | [], _ => true
  | _ :: _, [] => false
  | c :: cs, d :: ds => c = d && matchHere cs ds

/-- Index of the first occurrence of `pat` in `text` (relative to `text`),
or `none`.  This is JS `text.indexOf(pat)` restricted to a suffix. -/
def idxSuffix : List Char → List Char → Option Nat
  | text, pat =>
    if matchHere pat text then some 0
    else
      match text with
      | [] => none
      | _ :: t => (idxSuffix t pat).map (· + 1)

/-- JS `text.indexOf(pat, pos)`: the position argument is clamped to the text
length, and the result (if any) is an absolute index `≥ pos`. -/
def jsIndexOfFrom (text pat : List Char) (pos : Nat) : Option Nat :=
  (idxSuffix (text.drop (min pos text.length)) pat).map (· + min pos text.length)

/-- JS `text.includes(pat)` (used by `searchInText` via `lowerText.includes(...)`). -/
def includesSub (text pat : List Char) : Bool := (idxSuffix text pat).isSome

/-- Specification-side list of the match positions of the non-overlapping,
left-to-right scan of `pat` over `text` (after a match at `p`, the scan resumes
at `p + pat.length`).  Defined with fuel so that it evaluates by `decide`;
`scanPos` below instantiates the fuel with `text.length`, which always
suffices because every step shortens the text.  An empty `pat` produces no
match positions. -/
def scanPosFuel : Nat → List Char → List Char → List Nat
  | 0, _, _ => []
  | fuel + 1, text, pat =>
    if pat ≠ [] ∧ matchHere pat text then
      0 :: (scanPosFuel fuel (text.drop pat.length) pat).map (· + pat.length)
    else
      match text with
      | [] => []
      | _ :: t => (scanPosFuel fuel t pat).map (· + 1)

/-- The match positions of the non-overlapping left-to-right scan. -/
def scanPos (text pat : List Char) : List Nat := scanPosFuel text.length text pat

/-- The number of matches of the non-overlapping left-to-right scan. -/
def scanCount (text pat : List Char) : Nat := (scanPos text pat).length

/-- The specification's case-insensitive non-overlapping occurrence count of
`term` in `text` (both sides lowercased). -/
def ciScanCount (text term : String) : Nat :=
  scanCount (jsToLower text.toList) (jsToLower term.toList)

/-!  ### The `countMatches` / `findNthMatch` loops (MarkdownDiv.tsx)  -/

/-- The loop body of `countMatches`:
`while ((pos = searchableText.indexOf(lower, pos)) !== -1) { count++; pos += lower.length; }`.
`none` means the fuel ran out (for the empty pattern the loop never exits). -/
def countMatchesLoop (text pat : List Char) : Nat → Nat → Nat → Option Nat
  | _, _, 0 => none
  | pos, count, fuel + 1 =>
    match jsIndexOfFrom text pat pos with
    | none => some count
    | some p => countMatchesLoop text pat (p + pat.length) (count + 1) fuel

/-- `countMatches(searchableText, term)` from MarkdownDiv.tsx: lowercases the
term (only) and counts non-overlapping occurrences left to right.  `none`
models the non-terminating run on the empty term. -/
def countMatches (text term : String) : Option Nat :=
  countMatchesLoop text.toList (jsToLower term.toList) 0 0 (text.toList.length + 1)

/-- Total occurrence counter used where the source guards the term to be
non-empty before entering the loop (`countMatchesInData`, `goToMatchImpl`);
for a non-empty `pat` the fuel `text.length + 1` always suffices
(`countMatchesLoop_eq`), so the default `0` is never taken there. -/
def countOcc (text pat : List Char) : Nat :=
  (countMatchesLoop text pat 0 0 (text.length + 1)).getD 0

/-- The loop body of `findNthMatch` (1-based `n`; `n` is a JS number, kept as
`Int`).  Outer `none` = fuel exhausted; `some none` = the loop ran to the end
and returned `null`; `some (some (s, e))` = the returned span. -/
def findNthLoop (text pat : List Char) (n : Int) : Nat → Nat → Nat → Option (Option (Nat × Nat))
  | _, _, 0 => none
  | pos, count, fuel + 1 =>
    match jsIndexOfFrom text pat pos with
    | none => some none
    | some p =>
      if ((count + 1 : Nat) : Int) = n then some (some (p, p + pat.length))
      else findNthLoop text pat n (p + pat.length) (count + 1) fuel

/-- `findNthMatch(text, term, n)` from MarkdownDiv.tsx. -/
def findNthMatch (text term : String) (n : Int) : Option (Option (Nat × Nat)) :=
  findNthLoop text.toList (jsToLower term.toList) n 0 0 (text.toList.length + 1)

/-- The span of the nth occurrence, with the fuel already discharged (used by
the model of `highlightNthOccurrenceInPanel`, which only runs for non-empty
terms). -/
def findNthOcc (text pat : List Char) (n : Int) : Option (Nat × Nat) :=
  ((findNthLoop text pat n 0 0 (text.length + 1)).getD none)

/-!  ### Basic facts about the scanning primitives  -/

theorem matchHere_nil (text : List Char) : matchHere [] text = true := by
  cases text <;> rfl

theorem matchHere_nil_right (pat : List Char) (h : pat ≠ []) :
    matchHere pat [] = false := by
  cases pat with
  | nil => exact absurd rfl h
  | cons c cs => rfl

theorem matchHere_length {pat text : List Char} (h : matchHere pat text = true) :
    pat.length ≤ text.length := by
  induction pat generalizing text with
  | nil => simp
  | cons c cs ih =>
    cases text with
    | nil => simp [matchHere] at h
    | cons d ds =>
      simp only [matchHere, Bool.and_eq_true] at h
      simpa using ih h.2

theorem idxSuffix_nil_pat (text : List Char) : idxSuffix text [] = some 0 := by
  cases text <;> simp [idxSuffix, matchHere_nil]

theorem idxSuffix_some {text pat : List Char} {r : Nat}
    (h : idxSuffix text pat = some r) :
    r + pat.length ≤ text.length ∧ matchHere pat (text.drop r) = true := by
  induction text generalizing r with
  | nil =>
    rw [idxSuffix] at h
    by_cases hm : matchHere pat [] = true
    · simp [hm] at h
      subst h
      exact ⟨by simpa using matchHere_length hm, by simpa using hm⟩
    · simp [hm] at h
  | cons c t ih =>
    rw [idxSuffix] at h
    by_cases hm : matchHere pat (c :: t) = true
    · simp [hm] at h
      subst h
      exact ⟨by simpa using matchHere_length hm, by simpa using hm⟩
    · simp [hm] at h
      obtain ⟨r', hr', rfl⟩ := h
      obtain ⟨h1, h2⟩ := ih hr'
      exact ⟨by simp only [List.length_cons]; omega, by simpa using h2⟩

theorem idxSuffix_none_scanPosFuel {text pat : List Char}
    (h : idxSuffix text pat = none) :
    ∀ fuel, scanPosFuel fuel text pat = [] := by
  have hpat : pat ≠ [] := by
    intro hp; subst hp; rw [idxSuffix_nil_pat] at h; exact Option.noConfusion h
  intro fuel
  induction fuel generalizing text with
  | zero => rfl
  | succ fuel ih =>
    rw [idxSuffix.eq_def] at h
    by_cases hm : matchHere pat text = true
    · simp [hm] at h
    · cases text with
      | nil => rw [scanPosFuel]; simp [hpat, hm]
      | cons c t =>
        simp [hm] at h
        rw [scanPosFuel]
        simp only [hm, and_false, if_neg, ne_eq]
        simp [ih h]

theorem scanPosFuel_nil (fuel : Nat) (pat : List Char) :
    scanPosFuel fuel [] pat = [] := by
  cases fuel with
  | zero => rfl
  | succ fuel =>
    rw [scanPosFuel]
    by_cases hp : pat = []
    · simp [hp]
    · simp [hp, matchHere_nil_right pat hp]

theorem scanPosFuel_irrel :
    ∀ fuel₁ fuel₂ (text pat : List Char), text.length ≤ fuel₁ →
      text.length ≤ fuel₂ → scanPosFuel fuel₁ text pat = scanPosFuel fuel₂ text pat := by
  intro fuel₁
  induction fuel₁ with
  | zero =>
    intro fuel₂ text pat h1 _
    rw [List.length_eq_zero.mp (Nat.le_zero.mp h1), scanPosFuel_nil, scanPosFuel_nil]
  | succ f ih =>
    intro fuel₂ text pat h1 h2
    cases text with
    | nil => rw [scanPosFuel_nil, scanPosFuel_nil]
    | cons c t =>
      cases fuel₂ with
      | zero => simp at h2
      | succ f₂ =>
        have hlen : ∀ hp : pat ≠ [], ((c :: t).drop pat.length).length ≤ min f f₂ := by
          intro hp
          have : 1 ≤ pat.length := List.length_pos.mpr hp
          simp only [List.length_drop, List.length_cons] at *
          omega
        rw [scanPosFuel, scanPosFuel]
        by_cases hb : pat ≠ [] ∧ matchHere pat (c :: t) = true
        · rw [if_pos hb, if_pos hb,
            ih _ _ _ ((hlen hb.1).trans (Nat.min_le_left _ _))
              ((hlen hb.1).trans (Nat.min_le_right _ _))]
        · rw [if_neg hb, if_neg hb]
          simp only [List.length_cons] at h1 h2
          rw [ih f₂ t pat (by omega) (by omega)]

theorem scanPos_of_idxSuffix_some {text pat : List Char} {r : Nat}
    (hpat : pat ≠ []) (h : idxSuffix text pat = some r) :
    scanPos text pat
      = r :: (scanPos (text.drop (r + pat.length)) pat).map (· + (r + pat.length)) := by
  induction text generalizing r with
  | nil =>
    rw [idxSuffix] at h
    rw [matchHere_nil_right pat hpat] at h
    simp at h
  | cons c t ih =>
    rw [idxSuffix] at h
    by_cases hm : matchHere pat (c :: t) = true
    · simp [hm] at h
      subst h
      have h1 : 1 ≤ pat.length := List.length_pos.mpr hpat
      rw [scanPos]
      simp only [List.length_cons]
      rw [scanPosFuel, if_pos ⟨hpat, hm⟩]
      rw [scanPosFuel_irrel t.length ((c :: t).drop pat.length).length
        ((c :: t).drop pat.length) pat
        (by simp only [List.length_drop, List.length_cons]; omega) le_rfl]
      simp [scanPos]
    · simp [hm] at h
      obtain ⟨r', hr', rfl⟩ := h
      rw [scanPos]
      simp only [List.length_cons]
      rw [scanPosFuel, if_neg (by simp [hm])]
      rw [scanPosFuel_irrel t.length t.length t pat (by simp) le_rfl]
      rw [show scanPosFuel t.length t pat = scanPos t pat from rfl, ih hr']
      rw [show r' + 1 + pat.length = (r' + pat.length) + 1 by omega,
        List.drop_succ_cons]
      simp only [List.map_cons, List.map_map, List.cons.injEq, true_and]
      refine List.map_congr_left ?_
      intro a _
      simp only [Function.comp_apply]
      omega

theorem jsIndexOfFrom_of_le {text pat : List Char} {pos : Nat} (h : pos ≤ text.length) :
    jsIndexOfFrom text pat pos = (idxSuffix (text.drop pos) pat).map (· + pos) := by
  rw [jsIndexOfFrom, Nat.min_eq_left h]

theorem jsIndexOfFrom_empty_pat (text : List Char) {pos : Nat} (h : pos ≤ text.length) :
    jsIndexOfFrom text [] pos = some pos := by
  rw [jsIndexOfFrom_of_le h, idxSuffix_nil_pat]
  simp

/-- The `countMatches` while-loop never exits when the term is empty: the scan
position does not advance (`pos += lower.length` adds `0`). -/
theorem countMatchesLoop_empty_pat (text : List Char) :
    ∀ fuel pos count, countMatchesLoop text [] pos count fuel = none := by
  intro fuel
  induction fuel with
  | zero => intro pos count; rfl
  | succ f ih =>
    intro pos count
    rw [countMatchesLoop]
    cases hidx : jsIndexOfFrom text [] pos with
    | none => simp [jsIndexOfFrom] at hidx; rw [idxSuffix_nil_pat] at hidx; simp at hidx
    | some p => exact ih _ _

/-- Main loop lemma: for a non-empty pattern the `countMatches` loop, run with
any sufficient fuel, returns the accumulator plus the number of non-overlapping
matches in the remaining suffix. -/
theorem countMatchesLoop_eq {text pat : List Char} (hpat : pat ≠ []) :
    ∀ fuel pos count, pos ≤ text.length → 1 ≤ fuel →
      text.length + 1 - pos ≤ fuel →
      countMatchesLoop text pat pos count fuel
        = some (count + scanCount (text.drop pos) pat) := by
  intro fuel
  induction fuel with
  | zero => intro pos count _ h1 _; omega
  | succ f ih =>
    intro pos count hpos _ hfuel
    rw [countMatchesLoop, jsIndexOfFrom_of_le hpos]
    cases hidx : idxSuffix (text.drop pos) pat with
    | none =>
      have h0 : scanCount (text.drop pos) pat = 0 := by
        rw [scanCount, scanPos, idxSuffix_none_scanPosFuel hidx]
        rfl
      rw [h0]
      rfl
    | some r =>
      simp only [Option.map_some']
      have hL : 1 ≤ pat.length := List.length_pos.mpr hpat
      have hr1 : r + pat.length ≤ (text.drop pos).length := (idxSuffix_some hidx).1
      have hdl := List.length_drop pos text
      have hbound : pos + (r + pat.length) ≤ text.length := by omega
      have hstep : scanCount (text.drop pos) pat
          = scanCount (text.drop (r + pos + pat.length)) pat + 1 := by
        rw [scanCount, scanPos_of_idxSuffix_some hpat hidx]
        simp only [List.length_cons, List.length_map, scanCount]
        rw [List.drop_drop]
        rw [show pos + (r + pat.length) = r + pos + pat.length by omega]
      rw [ih (r + pos + pat.length) (count + 1) (by omega) (by omega) (by omega)]
      rw [hstep]
      congr 1
      omega

/-- `countMatches` on a non-empty term terminates and computes the
non-overlapping left-to-right scan count of the lowercased term. -/
theorem countMatches_eq {text term : String} (hterm : term.toList ≠ []) :
    countMatches text term = some (scanCount text.toList (jsToLower term.toList)) := by
  have hpat : jsToLower term.toList ≠ [] := by
    simp [jsToLower]
    exact hterm
  rw [countMatches,
    countMatchesLoop_eq hpat (text.toList.length + 1) 0 0 (by omega) (by omega) (by omega)]
  simp

theorem countOcc_eq {text pat : List Char} (hpat : pat ≠ []) :
    countOcc text pat = scanCount text pat := by
  rw [countOcc, countMatchesLoop_eq hpat (text.length + 1) 0 0 (by omega) (by omega) (by omega)]
  simp

/-!  ### The `findNthMatch` loop resolved against the scan positions  -/

/-- Specification-side companion of the `findNthMatch` loop: walk the list of
match positions, counting from `count`, and return the one at which the
counter reaches `n`. -/
def specFindNth : List Nat → Nat → Int → Option Nat
  | [], _, _ => none
  | p :: rest, count, n =>
    if ((count + 1 : Nat) : Int) = n then some p else specFindNth rest (count + 1) n

theorem specFindNth_eq_getElem :
    ∀ (ps : List Nat) (count : Nat) (n : Int),
      specFindNth ps count n
        = if (count : Int) < n then ps[(n - count - 1).toNat]? else none := by
  intro ps
  induction ps with
  | nil => intro count n; simp [specFindNth]
  | cons p rest ih =>
    intro count n
    rw [specFindNth]
    by_cases h1 : ((count + 1 : Nat) : Int) = n
    · rw [if_pos h1, if_pos (by omega)]
      rw [show (n - count - 1).toNat = 0 by omega]
      simp
    · rw [if_neg h1, ih]
      by_cases h2 : (count : Int) < n
      · have h3 : ((count + 1 : Nat) : Int) < n := by push_cast; push_cast at h1 h2; omega
        rw [if_pos h3, if_pos h2]
        rw [show (n - count - 1).toNat = (n - (count + 1 : Nat) - 1).toNat + 1 by push_cast; omega]
        simp
      · have h3 : ¬ ((count + 1 : Nat) : Int) < n := by push_cast; push_cast at h1 h2; omega
        rw [if_neg h3, if_neg h2]

theorem findNthLoop_eq {text pat : List Char} (hpat : pat ≠ []) (n : Int) :
    ∀ fuel pos count, pos ≤ text.length → 1 ≤ fuel →
      text.length + 1 - pos ≤ fuel →
      findNthLoop text pat n pos count fuel
        = some ((specFindNth ((scanPos (text.drop pos) pat).map (· + pos)) count n).map
            (fun p => (p, p + pat.length))) := by
  intro fuel
  induction fuel with
  | zero => intro pos count _ h1 _; omega
  | succ f ih =>
    intro pos count hpos _ hfuel
    rw [findNthLoop, jsIndexOfFrom_of_le hpos]
    cases hidx : idxSuffix (text.drop pos) pat with
    | none =>
      rw [scanPos, idxSuffix_none_scanPosFuel hidx]
      rfl
    | some r =>
      simp only [Option.map_some']
      have hL : 1 ≤ pat.length := List.length_pos.mpr hpat
      have hr1 : r + pat.length ≤ (text.drop pos).length := (idxSuffix_some hidx).1
      have hdl := List.length_drop pos text
      have hsc := scanPos_of_idxSuffix_some hpat hidx
      rw [hsc]
      simp only [List.map_cons, List.map_map, specFindNth]
      by_cases hn : ((count + 1 : Nat) : Int) = n
      · rw [if_pos hn, if_pos hn]
        simp
      · rw [if_neg hn, if_neg hn]
        rw [ih (r + pos + pat.length) (count + 1) (by omega) (by omega) (by omega)]
        rw [List.drop_drop, show pos + (r + pat.length) = r + pos + pat.length by omega]
        have hl : List.map ((fun x => x + pos) ∘ fun x => x + (r + pat.length))
              (scanPos (List.drop (r + pos + pat.length) text) pat)
            = List.map (fun x => x + (r + pos + pat.length))
              (scanPos (List.drop (r + pos + pat.length) text) pat) := by
          refine List.map_congr_left ?_
          intro a _
          simp only [Function.comp_apply]
          omega
        rw [hl]

/-- `findNthMatch` on a non-empty term always terminates. -/
theorem findNthMatch_total {text term : String} (hterm : term.toList ≠ []) (n : Int) :
    ∃ r, findNthMatch text term n = some r := by
  have hpat : jsToLower term.toList ≠ [] := by
    simp [jsToLower]; exact hterm
  rw [findNthMatch,
    findNthLoop_eq hpat n (text.toList.length + 1) 0 0 (by omega) (by omega) (by omega)]
  exact ⟨_, rfl⟩

/-- `findNthMatch` on a non-empty term with `n ≥ 1` returns exactly the span of
the nth (1-based) match position of the same non-overlapping scan that
`countMatches` counts (or `null` when there are fewer than `n` matches). -/
theorem findNthMatch_eq {text term : String} (hterm : term.toList ≠ []) {n : Int}
    (hn : 1 ≤ n) :
    findNthMatch text term n
      = some (((scanPos text.toList (jsToLower term.toList))[(n - 1).toNat]?).map
          (fun p => (p, p + (jsToLower term.toList).length))) := by
  have hpat : jsToLower term.toList ≠ [] := by
    simp [jsToLower]; exact hterm
  rw [findNthMatch,
    findNthLoop_eq hpat n (text.toList.length + 1) 0 0 (by omega) (by omega) (by omega)]
  rw [specFindNth_eq_getElem]
  rw [List.drop_zero]
  have hmap : (scanPos text.toList (jsToLower term.toList)).map (· + 0)
      = scanPos text.toList (jsToLower term.toList) := by
    simp
  rw [hmap]
  rw [if_pos (by push_cast; omega)]
  simp only [Nat.cast_zero, sub_zero]

/-!  ### Data-level search (LiveVirtualList.tsx)

`LiveVirtualList` is generic over the item type `T` with an
`itemSearchText : T → string | string[]` extractor; we model the extractor as
`getText : α → List String` (the source normalises a single string into a
one-element array before use).  -/

/-- `prepareSearchTerm` (LiveVirtualList.tsx): the lowered term plus, when the
term contains a quote or a colon, its unquoted and JSON-escaped variants. -/
structure PreparedSearchTerms where
  simple : List Char
  unquoted : Option (List Char)
  jsonEscaped : Option (List Char)

/-- JS `lower.replace(/"/g, '\\"')`. -/
def escapeQuotes : List Char → List Char
  | [] => []
  | c :: t => if c = '"' then '\\' :: '"' :: escapeQuotes t else c :: escapeQuotes t

def prepareSearchTerm (term : List Char) : PreparedSearchTerms :=
  let lower := jsToLower term
  if ¬ (term.contains '"' || term.contains ':') then
    ⟨lower, none, none⟩
  else
    ⟨lower, some (lower.filter (· ≠ '"')), some (escapeQuotes lower)⟩

/-- JS truthiness check of an optional string followed by `includes` (the
`prepared.unquoted && lowerText.includes(prepared.unquoted)` pattern; an empty
string is falsy). -/
def optIncluded (lowerText : List Char) : Option (List Char) → Bool
  | none => false
  | some v => ¬ v.isEmpty && includesSub lowerText v

/-- `searchInText` (LiveVirtualList.tsx): does `text` contain the term or one
of its JSON-flavoured variants, case-insensitively? -/
def searchInText (text searchTerm : List Char) : Bool :=
  let lowerText := jsToLower text
  let prepared := prepareSearchTerm searchTerm
  includesSub lowerText prepared.simple
    || optIncluded lowerText prepared.unquoted
    || optIncluded lowerText prepared.jsonEscaped

/-- `searchInItem` (LiveVirtualList.tsx). -/
def searchInItem {α : Type} (getText : α → List String) (item : α)
    (searchTerm : String) : Bool :=
  ((getText item).map (fun text => searchInText text.toList searchTerm.toList)).any id

/-- The per-item inner loops shared by `countMatchesInData` and phase 1 of
`goToMatchImpl`: for each searchable text, count the non-overlapping
occurrences of the lowered term in the lowered text (the literal
`while (nextPos !== -1)` loop is `countMatchesLoop`; the term is non-empty at
every call site, so the fuel in `countOcc` suffices). -/
def matchesInItem {α : Type} (getText : α → List String) (item : α)
    (lower : List Char) : Nat :=
  ((getText item).map (fun text => countOcc (jsToLower text.toList) lower)).sum

/-- `countMatchesInData` (LiveVirtualList.tsx lines 305-330): the data-level
total match count registered with the find context as this panel's counter. -/
def countMatchesInData {α : Type} (getText : α → List String) (data : List α)
    (term : String) : Nat :=
  if term.toList.isEmpty || data.isEmpty then 0
  else (data.map (fun item => matchesInItem getText item (jsToLower term.toList))).sum

/-- Phase 1 of `goToMatchImpl` (lines 377-401): walk the items, skipping items
that do not contain the term, accumulating per-item counts, and stop at the
first item whose cumulative count reaches the requested absolute index.
JS numbers are embedded as `Int`. -/
def resolveLoop {α : Type} (getText : α → List String) (term : String)
    (lower : List Char) (absoluteIndex : Int) :
    List α → Nat → Int → Option (Nat × Int)
  | [], _, _ => none
  | item :: rest, i, cumulative =>
    if ¬ searchInItem getText item term then
      resolveLoop getText term lower absoluteIndex rest (i + 1) cumulative
    else
      let m : Int := matchesInItem getText item lower
      if cumulative + m ≥ absoluteIndex then some (i, absoluteIndex - cumulative)
      else resolveLoop getText term lower absoluteIndex rest (i + 1) (cumulative + m)

/-- The data-level resolver: `goToMatchImpl`'s guards plus its phase-1 walk,
returning the `(targetIdx, occurrenceInItem)` pair the walk produces (`none`
when the guards fail or the index exceeds the total). -/
def resolveMatch {α : Type} (getText : α → List String) (data : List α)
    (term : String) (absoluteIndex : Int) : Option (Nat × Int) :=
  if data.isEmpty || term.toList.isEmpty || absoluteIndex < 1 then none
  else resolveLoop getText term (jsToLower term.toList) absoluteIndex data 0 0

/-- The searchable text the rendered panel of an item exposes
(`buildSearchableText` lowercases every text node it concatenates); the DOM
surface is abstracted by a `rendered : α → String` view of each item. -/
def panelText {α : Type} (rendered : α → String) (item : α) : List Char :=
  jsToLower (rendered item).toList

/-- Phase 2 of `goToMatchImpl` (lines 405-446): starting from the resolved
target item, skip items without the term or without an id, count the rendered
(`DOM`-level) matches of the current item, highlight when the remaining
occurrence budget fits, otherwise subtract the rendered count and continue.
The result records which `(itemIndex, occurrence)` was highlighted (the
source returns `true` after applying that highlight), `none` when the walk
returns `false`.  `highlightNthOccurrenceInPanel` succeeds exactly when
`findNthMatch` finds the requested occurrence in the panel's text. -/
def phase2Loop {α : Type} (getText : α → List String) (getId : α → Option String)
    (rendered : α → String) (term : String) (lower : List Char) (targetIdx : Nat) :
    List α → Nat → Int → Option (Nat × Int)
  | [], _, _ => none
  | item :: rest, i, occ =>
    if i ≠ targetIdx ∧ ¬ searchInItem getText item term then
      phase2Loop getText getId rendered term lower targetIdx rest (i + 1) occ
    else
      match getId item with
      | none => phase2Loop getText getId rendered term lower targetIdx rest (i + 1) occ
      | some _ =>
        let text := panelText rendered item
        let dom : Int := countOcc text lower
        if occ ≤ dom ∧ (findNthOcc text lower occ).isSome then some (i, occ)
        else phase2Loop getText getId rendered term lower targetIdx rest (i + 1) (occ - dom)

/-- `goToMatchImpl` (LiveVirtualList.tsx lines 361-447), sequentially (the
navigation-token interleaving is modelled separately below): guards, phase-1
data-level resolution, then the phase-2 rendered walk from the target item. -/
def goToMatchImpl {α : Type} (getText : α → List String) (getId : α → Option String)
    (rendered : α → String) (data : List α) (term : String) (absoluteIndex : Int) :
    Option (Nat × Int) :=
  match resolveMatch getText data term absoluteIndex with
  | none => none
  | some (targetIdx, occ) =>
    phase2Loop getText getId rendered term (jsToLower term.toList) targetIdx
      (data.drop targetIdx) targetIdx occ

/-- The state a `LiveVirtualList` panel holds: its data and the visible window
of the virtualizer.  The registered match counter closes over `data` (and the
extractor) only — `visibleRange` is not an input to it. -/
structure PanelState (α : Type) where
  data : List α
  visibleRange : Nat × Nat

/-- The counter a panel registers with the find context
(`registerMatchCounter(id, countMatchesInData)`). -/
def panelCountFn {α : Type} (getText : α → List String) (st : PanelState α) :
    String → Nat :=
  fun term => countMatchesInData getText st.data term

/-- The specification's full-linear-scan count: the sum, over all items and
all of each item's SearchableText strings, of the case-insensitive
non-overlapping occurrences of the term. -/
def specCountAll {α : Type} (getText : α → List String) (data : List α)
    (term : String) : Nat :=
  (data.map (fun item =>
    ((getText item).map (fun text => ciScanCount text term)).sum)).sum

/-- `countAllMatches` of the find context (ExtendedFindContext.tsx lines
268-274): the sum of all registered panel counters. -/
def countAllMatches (counters : List (String → Nat)) (term : String) : Nat :=
  (counters.map (fun f => f term)).sum

theorem string_toList_eq_nil {s : String} : s.toList = [] ↔ s = "" := by
  cases s with
  | mk data =>
    constructor
    · intro h
      rw [show ("" : String) = String.mk [] from rfl]
      exact congrArg String.mk h
    · intro h
      rw [h]
      rfl

theorem jsToLower_eq_nil {s : List Char} : jsToLower s = [] ↔ s = [] := by
  simp [jsToLower]

theorem prepareSearchTerm_simple (t : List Char) :
    (prepareSearchTerm t).simple = jsToLower t := by
  rw [prepareSearchTerm]
  split <;> rfl

theorem countOcc_of_idxSuffix_none {text pat : List Char}
    (h : idxSuffix text pat = none) : countOcc text pat = 0 := by
  rw [countOcc, countMatchesLoop,
    jsIndexOfFrom_of_le (Nat.zero_le _), List.drop_zero, h]
  rfl

/-- An item skipped by the `searchInItem` pre-filter contributes no data-level
matches: its `matchesInItem` count is `0`. -/
theorem matchesInItem_of_not_search {α : Type} {getText : α → List String}
    {item : α} {term : String} (h : ¬ searchInItem getText item term = true) :
    matchesInItem getText item (jsToLower term.toList) = 0 := by
  rw [matchesInItem]
  refine List.sum_eq_zero ?_
  intro x hx
  simp only [List.mem_map] at hx
  obtain ⟨text, htext, rfl⟩ := hx
  have hst : searchInText text.toList term.toList = false := by
    by_contra hc
    apply h
    rw [searchInItem]
    simp only [List.any_eq_true, List.mem_map]
    exact ⟨searchInText text.toList term.toList, ⟨text, htext, rfl⟩,
      by simpa using eq_true_of_ne_false (by simpa using hc)⟩
  rw [searchInText] at hst
  simp only [Bool.or_eq_false_iff] at hst
  have hinc : includesSub (jsToLower text.toList) (jsToLower term.toList) = false := by
    have := hst.1.1
    rwa [prepareSearchTerm_simple] at this
  rw [includesSub] at hinc
  have hnone : idxSuffix (jsToLower text.toList) (jsToLower term.toList) = none :=
    Option.not_isSome_iff_eq_none.mp (by rw [hinc]; simp)
  exact countOcc_of_idxSuffix_none hnone

/-- C1 supporting equality: the data-level counter equals the specification's
full linear scan. -/
theorem countMatchesInData_eq_spec {α : Type} (getText : α → List String)
    (data : List α) {term : String} (hterm : term ≠ "") :
    countMatchesInData getText data term = specCountAll getText data term := by
  have hterm' : term.toList ≠ [] := fun h => hterm (string_toList_eq_nil.mp h)
  have hpat : jsToLower term.toList ≠ [] := fun h => hterm' (jsToLower_eq_nil.mp h)
  by_cases hd : data = []
  · subst hd
    simp [countMatchesInData, specCountAll]
  · rw [countMatchesInData,
      if_neg (by simp [List.isEmpty_iff, hd]; exact hterm')]
    rw [specCountAll]
    refine congrArg List.sum ?_
    refine List.map_congr_left ?_
    intro item _
    rw [matchesInItem]
    refine congrArg List.sum ?_
    refine List.map_congr_left ?_
    intro text _
    rw [ciScanCount, countOcc_eq hpat]

/-- C1: for every fixed extractor, item list and non-empty term, the
registered data-level counter equals the full linear scan of all items'
searchable texts (case-insensitive, non-overlapping); `countAllMatches` sums
exactly these per-panel full-scan counts; and the count is a function of the
panel's data alone — two panel states with the same data but arbitrarily
different visible windows produce the same count on every evaluation. -/
theorem countAllMatches_full_scan {α : Type} (getText : α → List String)
    (data : List α) {term : String} (hterm : term ≠ "") :
    countMatchesInData getText data term = specCountAll getText data term
    ∧ (∀ panels : List (PanelState α),
        countAllMatches (panels.map (panelCountFn getText)) term
          = (panels.map (fun st => specCountAll getText st.data term)).sum)
    ∧ (∀ st st' : PanelState α, st.data = st'.data →
        ∀ t : String, panelCountFn getText st t = panelCountFn getText st' t) := by
  refine ⟨countMatchesInData_eq_spec getText data hterm, ?_, ?_⟩
  · intro panels
    rw [countAllMatches, List.map_map]
    refine congrArg List.sum ?_
    refine List.map_congr_left ?_
    intro st _
    simp only [Function.comp_apply, panelCountFn]
    exact countMatchesInData_eq_spec getText st.data hterm
  · intro st st' hdata t
    simp [panelCountFn, hdata]

/-- Witness for `countAllMatches_full_scan` at a concrete input. -/
theorem countAllMatches_full_scan_witness :
    ("ab" : String) ≠ ""
    ∧ (countMatchesInData id [["xaby"], ["ab ab"]] "ab"
          = specCountAll id [["xaby"], ["ab ab"]] "ab"
        ∧ (∀ panels : List (PanelState (List String)),
            countAllMatches (panels.map (panelCountFn id)) "ab"
              = (panels.map (fun st => specCountAll id st.data "ab")).sum)
        ∧ (∀ st st' : PanelState (List String), st.data = st'.data →
            ∀ t : String, panelCountFn id st t = panelCountFn id st' t)) :=
  ⟨by decide, countAllMatches_full_scan id [["xaby"], ["ab ab"]] (by decide)⟩

/-- The total data-level match count of a list of items (the resolver's
cumulative count over a whole suffix). -/
def itemsTotal {α : Type} (getText : α → List String) (lower : List Char)
    (items : List α) : Nat :=
  (items.map (fun item => matchesInItem getText item lower)).sum

/-- The phase-1 walk returns `none` when the requested absolute index exceeds
the accumulated total of the remaining items. -/
theorem resolveLoop_none_of_gt {α : Type} (getText : α → List String)
    (term : String) (lower : List Char) (k : Int) :
    ∀ (items : List α) (i : Nat) (cum : Int),
      cum + (itemsTotal getText lower items : Int) < k →
      resolveLoop getText term lower k items i cum = none := by
  intro items
  induction items with
  | nil => intro i cum _; rfl
  | cons item rest ih =>
    intro i cum hk
    have htot : itemsTotal getText lower (item :: rest)
        = matchesInItem getText item lower + itemsTotal getText lower rest := by
      simp [itemsTotal]
    rw [htot] at hk
    rw [resolveLoop]
    by_cases hs : ¬ searchInItem getText item term = true
    · rw [if_pos hs]
      exact ih (i + 1) cum (by push_cast at hk ⊢; omega)
    · rw [if_neg hs]
      rw [if_neg (by push_cast at hk ⊢; omega)]
      exact ih (i + 1) _ (by push_cast at hk ⊢; omega)

/-- The scenario data of C2: the term occurs twice in the searchable text of
item index 2 and three times in item index 7, nowhere else. -/
def c2Data : List (List String) :=
  [[""], [""], ["xerrorerror"], [""], [""], [""], [""],
    ["error one error two error"]]

/-- C2: on `c2Data` the data-level count of "error" is 5; resolving absolute
index 3 yields item 7, occurrence 1; resolving absolute index 5 yields item 7,
occurrence 3; and resolving any absolute index greater than the total yields
`none`.  The resolver is the accumulating linear walk `resolveLoop`, which
stops at the first item whose cumulative count reaches the requested index. -/
theorem resolve_scenario_c2 :
    countMatchesInData id c2Data "error" = 5
    ∧ resolveMatch id c2Data "error" 3 = some (7, 1)
    ∧ resolveMatch id c2Data "error" 5 = some (7, 3)
    ∧ (∀ k : Int, 5 < k → resolveMatch id c2Data "error" k = none) := by
  refine ⟨by decide, by decide, by decide, ?_⟩
  intro k hk
  rw [resolveMatch,
    if_neg (by
      simp only [show c2Data.isEmpty = false from rfl,
        show ("error".toList.isEmpty) = false from rfl, Bool.false_or,
        Bool.or_eq_true, decide_eq_true_eq]
      omega)]
  refine resolveLoop_none_of_gt id "error" (jsToLower "error".toList) k c2Data 0 0 ?_
  rw [show itemsTotal id (jsToLower "error".toList) c2Data = 5 from by decide]
  omega

/-- Witness for `resolve_scenario_c2` with the tail universal instantiated at
the concrete out-of-range index 6. -/
theorem resolve_scenario_c2_witness :
    countMatchesInData id c2Data "error" = 5
    ∧ resolveMatch id c2Data "error" 6 = none :=
  ⟨resolve_scenario_c2.1, resolve_scenario_c2.2.2.2 6 (by decide)⟩

theorem resolveLoop_index_ge {α : Type} (getText : α → List String)
    (term : String) (lower : List Char) (k : Int) {j : Nat} {o : Int} :
    ∀ (items : List α) (i : Nat) (cum : Int),
      resolveLoop getText term lower k items i cum = some (j, o) → i ≤ j := by
  intro items
  induction items with
  | nil => intro i cum h; exact absurd h (by simp [resolveLoop])
  | cons item rest ih =>
    intro i cum h
    rw [resolveLoop] at h
    by_cases hs : ¬ searchInItem getText item term = true
    · rw [if_pos hs] at h
      exact Nat.le_of_succ_le (ih (i + 1) cum h)
    · rw [if_neg hs] at h
      by_cases hge : cum + (matchesInItem getText item lower : Int) ≥ k
      · rw [if_pos hge] at h
        cases h
        exact le_rfl
      · rw [if_neg hge] at h
        exact Nat.le_of_succ_le (ih (i + 1) _ h)

theorem resolveLoop_occ_pos {α : Type} (getText : α → List String)
    (term : String) (lower : List Char) (k : Int) {j : Nat} {o : Int} :
    ∀ (items : List α) (i : Nat) (cum : Int), cum < k →
      resolveLoop getText term lower k items i cum = some (j, o) → 1 ≤ o := by
  intro items
  induction items with
  | nil => intro i cum _ h; exact absurd h (by simp [resolveLoop])
  | cons item rest ih =>
    intro i cum hcum h
    rw [resolveLoop] at h
    by_cases hs : ¬ searchInItem getText item term = true
    · rw [if_pos hs] at h
      exact ih (i + 1) cum hcum h
    · rw [if_neg hs] at h
      by_cases hge : cum + (matchesInItem getText item lower : Int) ≥ k
      · rw [if_pos hge] at h
        cases h
        omega
      · rw [if_neg hge] at h
        exact ih (i + 1) _ (by omega) h

/-- Resolving absolute index `k` and `k + 1` over the same data yields either
the same item with the occurrence incremented, or a strictly larger item
index (or `k + 1` is out of range). -/
theorem resolveLoop_succ {α : Type} (getText : α → List String)
    (term : String) (lower : List Char) (k : Int) {j : Nat} {o : Int} :
    ∀ (items : List α) (i : Nat) (cum : Int), cum < k →
      resolveLoop getText term lower k items i cum = some (j, o) →
      resolveLoop getText term lower (k + 1) items i cum = none
      ∨ ∃ j' o', resolveLoop getText term lower (k + 1) items i cum = some (j', o')
          ∧ ((j' = j ∧ o' = o + 1) ∨ j < j') := by
  intro items
  induction items with
  | nil => intro i cum _ h; exact absurd h (by simp [resolveLoop])
  | cons item rest ih =>
    intro i cum hcum h
    rw [resolveLoop] at h
    rw [resolveLoop]
    by_cases hs : ¬ searchInItem getText item term = true
    · rw [if_pos hs] at h ⊢
      exact ih (i + 1) cum hcum h
    · rw [if_neg hs] at h ⊢
      set m : Int := (matchesInItem getText item lower : Int) with hm
      by_cases h1 : cum + m ≥ k + 1
      · rw [if_pos (by omega : cum + m ≥ k)] at h
        rw [if_pos h1]
        obtain ⟨rfl, rfl⟩ : i = j ∧ k - cum = o := by
          simpa [Prod.ext_iff] using h
        exact Or.inr ⟨i, k + 1 - cum, rfl, Or.inl ⟨rfl, by omega⟩⟩
      · by_cases h2 : cum + m ≥ k
        · rw [if_pos h2] at h
          rw [if_neg h1]
          obtain ⟨rfl, rfl⟩ : i = j ∧ k - cum = o := by
            simpa [Prod.ext_iff] using h
          cases hrec : resolveLoop getText term lower (k + 1) rest (i + 1) (cum + m) with
          | none => exact Or.inl rfl
          | some p =>
            obtain ⟨j', o'⟩ := p
            refine Or.inr ⟨j', o', rfl, Or.inr ?_⟩
            have := resolveLoop_index_ge getText term lower (k + 1) rest (i + 1) (cum + m) hrec
            omega
        · rw [if_neg h2] at h
          rw [if_neg h1]
          exact ih (i + 1) (cum + m) (by omega) h

/-- The phase-1 walk finds an owner for every absolute index within the
data-level total. -/
theorem resolveLoop_some_of_le {α : Type} (getText : α → List String)
    (term : String) (k : Int) :
    ∀ (items : List α) (i : Nat) (cum : Int), cum < k →
      k ≤ cum + (itemsTotal getText (jsToLower term.toList) items : Int) →
      ∃ j o, resolveLoop getText term (jsToLower term.toList) k items i cum
          = some (j, o) := by
  intro items
  induction items with
  | nil =>
    intro i cum hcum hk
    simp [itemsTotal] at hk
    omega
  | cons item rest ih =>
    intro i cum hcum hk
    have htot : (itemsTotal getText (jsToLower term.toList) (item :: rest) : Int)
        = (matchesInItem getText item (jsToLower term.toList) : Int)
          + (itemsTotal getText (jsToLower term.toList) rest : Int) := by
      simp [itemsTotal]
    rw [resolveLoop]
    by_cases hs : ¬ searchInItem getText item term = true
    · rw [if_pos hs]
      have hz := matchesInItem_of_not_search hs
      exact ih (i + 1) cum hcum (by rw [htot, hz] at hk; simpa using hk)
    · rw [if_neg hs]
      by_cases hge : cum + (matchesInItem getText item (jsToLower term.toList) : Int) ≥ k
      · rw [if_pos hge]
        exact ⟨i, k - cum, rfl⟩
      · rw [if_neg hge]
        exact ih (i + 1) _ (by omega) (by rw [htot] at hk; omega)

theorem countMatchesInData_eq_itemsTotal {α : Type} (getText : α → List String)
    {data : List α} {term : String} (hterm : ¬ term.toList = [])
    (hdata : ¬ data = []) :
    countMatchesInData getText data term
      = itemsTotal getText (jsToLower term.toList) data := by
  rw [countMatchesInData, if_neg (by simp [List.isEmpty_iff, hdata]; exact hterm)]
  rfl

/-- C3: for every extractor, data, term and absolute index `k` with
`1 ≤ k < countMatchesInData`, resolving `k` and `k + 1` both succeed and the
second result is either the same item with the occurrence incremented by one
or a strictly larger item index; in particular the item index never
decreases. -/
theorem resolve_nondecreasing {α : Type} (getText : α → List String)
    (data : List α) (term : String) (k : Int) (hk : 1 ≤ k)
    (hk2 : k + 1 ≤ (countMatchesInData getText data term : Int)) :
    ∃ j o j' o',
      resolveMatch getText data term k = some (j, o)
      ∧ resolveMatch getText data term (k + 1) = some (j', o')
      ∧ ((j' = j ∧ o' = o + 1) ∨ j < j')
      ∧ j ≤ j' := by
  have hcount : 1 ≤ countMatchesInData getText data term := by
    by_contra h
    omega
  have hterm : ¬ term.toList = [] := by
    intro h
    have h0 : countMatchesInData getText data term = 0 := by
      rw [countMatchesInData, if_pos (by rw [h]; simp)]
    omega
  have hdata : ¬ data = [] := by
    intro h
    have h0 : countMatchesInData getText data term = 0 := by
      rw [countMatchesInData, if_pos (by rw [h]; simp)]
    omega
  have htermd : ¬ term.data = [] := hterm
  have htot := countMatchesInData_eq_itemsTotal getText hterm hdata
  rw [htot] at hk2
  obtain ⟨j, o, hj⟩ := resolveLoop_some_of_le getText term k data 0 0
    (by omega) (by omega)
  obtain ⟨j', o', hj'⟩ := resolveLoop_some_of_le getText term (k + 1) data 0 0
    (by omega) (by omega)
  have hguard : ∀ k' : Int, 1 ≤ k' →
      resolveMatch getText data term k'
        = resolveLoop getText term (jsToLower term.toList) k' data 0 0 := by
    intro k' hk'
    rw [resolveMatch,
      if_neg (by simp [List.isEmpty_iff, hdata, htermd]; omega)]
  rcases resolveLoop_succ getText term (jsToLower term.toList) k data 0 0
      (by omega) hj with hnone | ⟨ja, oa, hja, hdisj⟩
  · rw [hnone] at hj'
    exact absurd hj' (by simp)
  · rw [hja] at hj'
    obtain ⟨rfl, rfl⟩ : ja = j' ∧ oa = o' := by
      simpa [Prod.ext_iff] using hj'
    refine ⟨j, o, ja, oa, ?_, ?_, hdisj, ?_⟩
    · rw [hguard k hk]; exact hj
    · rw [hguard (k + 1) (by omega)]; exact hja
    · rcases hdisj with ⟨rfl, _⟩ | hlt
      · exact le_rfl
      · omega

/-- Witness for `resolve_nondecreasing` on the C2 scenario data at `k = 1`. -/
theorem resolve_nondecreasing_witness :
    ∃ j o j' o',
      resolveMatch id c2Data "error" 1 = some (j, o)
      ∧ resolveMatch id c2Data "error" 2 = some (j', o')
      ∧ ((j' = j ∧ o' = o + 1) ∨ j < j')
      ∧ j ≤ j' :=
  resolve_nondecreasing id c2Data "error" 1 (by decide)
    (by rw [show countMatchesInData id c2Data "error" = 5 from by decide]; omega)

/-!  ### C4 / C5 / C10: the MatchIndex primitives  -/

theorem jsToLower_length (s : List Char) : (jsToLower s).length = s.length := by
  simp [jsToLower]

theorem getElem?_isSome_iff {α : Type} {l : List α} {i : Nat} :
    l[i]?.isSome = true ↔ i < l.length := by
  constructor
  · intro h
    by_contra hc
    rw [List.getElem?_eq_none (by omega)] at h
    simp at h
  · intro h
    rw [List.getElem?_eq_getElem h]
    rfl

theorem getElem?_none_iff {α : Type} {l : List α} {i : Nat} :
    l[i]? = none ↔ l.length ≤ i := by
  constructor
  · intro h
    by_contra hc
    rw [List.getElem?_eq_getElem (by omega)] at h
    exact Option.noConfusion h
  · intro h
    exact List.getElem?_eq_none h

/-- C4 counterexample: `countMatches` lowercases only the term, not the text,
so on the text `"A"` and term `"a"` it counts `0` occurrences while the
case-insensitive scan counts `1`. -/
theorem countMatches_case_counterexample :
    countMatches "A" "a" = some 0
    ∧ ciScanCount "A" "a" = 1
    ∧ countMatches "A" "a" ≠ some (ciScanCount "A" "a") := by
  refine ⟨by decide, by decide, by decide⟩

/-- C4 (amended): for every text that is already lowercase — as every caller
supplies, the searchable text being built lowercased — and every non-empty
term, `countMatches` equals the case-insensitive, left-to-right,
non-overlapping scan count with resumption at `p + L` after a match at `p`. -/
theorem countMatches_ci_on_lowercase {text term : String}
    (hlow : jsToLower text.toList = text.toList) (hterm : term ≠ "") :
    countMatches text term = some (ciScanCount text term) := by
  have hterm' : term.toList ≠ [] := fun h => hterm (string_toList_eq_nil.mp h)
  rw [countMatches_eq hterm', ciScanCount, scanCount, scanCount, hlow]

/-- Witness for `countMatches_ci_on_lowercase`. -/
theorem countMatches_ci_on_lowercase_witness :
    jsToLower "abc ab".toList = "abc ab".toList
    ∧ ("AB" : String) ≠ ""
    ∧ countMatches "abc ab" "AB" = some (ciScanCount "abc ab" "AB") :=
  ⟨by decide, by decide, countMatches_ci_on_lowercase (by decide) (by decide)⟩

/-- C5: for every text, non-empty term and `n ≥ 1`, `findNthMatch` returns a
span exactly when `n ≤ countMatches`, returns `null` when fewer than `n`
matches exist, and the returned span is the `n`-th (1-based) match position of
the same non-overlapping left-to-right scan as `countMatches`, with
`globalEnd = globalStart + term.length`. -/
theorem findNthMatch_spec {text term : String} (hterm : term ≠ "") {n : Int}
    (hn : 1 ≤ n) :
    ∃ cnt : Nat,
      countMatches text term = some cnt
      ∧ ((∃ span, findNthMatch text term n = some (some span)) ↔ n ≤ (cnt : Int))
      ∧ (findNthMatch text term n = some none ↔ (cnt : Int) < n)
      ∧ (∀ s e, findNthMatch text term n = some (some (s, e)) →
          e = s + term.length
          ∧ (scanPos text.toList (jsToLower term.toList))[(n - 1).toNat]? = some s) := by
  have hterm' : term.toList ≠ [] := fun h => hterm (string_toList_eq_nil.mp h)
  set ps := scanPos text.toList (jsToLower term.toList) with hps
  refine ⟨ps.length, countMatches_eq hterm', ?_, ?_, ?_⟩
  · rw [findNthMatch_eq hterm' hn]
    constructor
    · rintro ⟨span, hspan⟩
      rw [Option.some_inj] at hspan
      have hsome : ps[(n - 1).toNat]?.isSome = true := by
        cases hg : ps[(n - 1).toNat]? with
        | none => rw [hg] at hspan; simp at hspan
        | some p => simp
      rw [getElem?_isSome_iff] at hsome
      omega
    · intro hle
      have hlt : (n - 1).toNat < ps.length := by omega
      obtain ⟨p, hp⟩ := Option.isSome_iff_exists.mp (getElem?_isSome_iff.mpr hlt)
      exact ⟨(p, p + (jsToLower term.toList).length), by rw [hp]; rfl⟩
  · rw [findNthMatch_eq hterm' hn]
    constructor
    · intro hspan
      rw [Option.some_inj] at hspan
      have hnone : ps[(n - 1).toNat]? = none := by
        cases hg : ps[(n - 1).toNat]? with
        | none => rfl
        | some p => rw [hg] at hspan; simp at hspan
      rw [getElem?_none_iff] at hnone
      omega
    · intro hlt
      have hnone : ps[(n - 1).toNat]? = none := getElem?_none_iff.mpr (by omega)
      rw [hnone]
      rfl
  · intro s e hspan
    rw [findNthMatch_eq hterm' hn, Option.some_inj] at hspan
    cases hg : ps[(n - 1).toNat]? with
    | none => rw [hg] at hspan; simp at hspan
    | some p =>
      rw [hg] at hspan
      simp only [Option.map_some', Option.some_inj, Prod.mk.injEq] at hspan
      obtain ⟨hs, he⟩ := hspan
      subst hs
      constructor
      · rw [← he, jsToLower_length]
        rfl
      · rfl

/-- Witness for `findNthMatch_spec`. -/
theorem findNthMatch_spec_witness :
    ("ABC" : String) ≠ ""
    ∧ (1 : Int) ≤ 2
    ∧ ∃ cnt : Nat,
        countMatches "x abc y abc" "ABC" = some cnt
        ∧ ((∃ span, findNthMatch "x abc y abc" "ABC" 2 = some (some span))
            ↔ (2 : Int) ≤ (cnt : Int))
        ∧ (findNthMatch "x abc y abc" "ABC" 2 = some none ↔ (cnt : Int) < 2)
        ∧ (∀ s e, findNthMatch "x abc y abc" "ABC" 2 = some (some (s, e)) →
            e = s + ("ABC" : String).length
            ∧ (scanPos "x abc y abc".toList
                (jsToLower "ABC".toList))[((2 : Int) - 1).toNat]? = some s) :=
  ⟨by decide, by decide, findNthMatch_spec (by decide) (by decide)⟩

/-- C10: for every non-empty term both scan loops terminate (each iteration
advances the position by the term's length, at least one), the empty term
leaves the scan position unchanged (`indexOf` returns the current position and
`pos += lower.length` adds zero, so the `countMatches` loop never exits for
any amount of fuel), and the callers that reach the loops guard against the
empty term: `countMatchesInData` returns `0` and `goToMatchImpl` reports
not-found before scanning. -/
theorem scan_termination :
    (∀ text term : String, term ≠ "" → ∃ c, countMatches text term = some c)
    ∧ (∀ (text term : String) (n : Int), term ≠ "" →
        ∃ r, findNthMatch text term n = some r)
    ∧ (∀ (text : List Char) (pos : Nat), pos ≤ text.length →
        jsIndexOfFrom text [] pos = some pos)
    ∧ (∀ (text : List Char) (fuel pos count : Nat),
        countMatchesLoop text [] pos count fuel = none)
    ∧ (∀ (α : Type) (getText : α → List String) (data : List α),
        countMatchesInData getText data "" = 0)
    ∧ (∀ (α : Type) (getText : α → List String) (getId : α → Option String)
        (rendered : α → String) (data : List α) (k : Int),
        goToMatchImpl getText getId rendered data "" k = none) := by
  refine ⟨?_, ?_, ?_, ?_, ?_, ?_⟩
  · intro text term hterm
    exact ⟨_, countMatches_eq (fun h => hterm (string_toList_eq_nil.mp h))⟩
  · intro text term n hterm
    exact findNthMatch_total (fun h => hterm (string_toList_eq_nil.mp h)) n
  · intro text pos hpos
    exact jsIndexOfFrom_empty_pat text hpos
  · intro text fuel pos count
    exact countMatchesLoop_empty_pat text fuel pos count
  · intro α getText data
    rw [countMatchesInData,
      if_pos (by rw [show ("" : String).toList = [] from rfl]; simp)]
  · intro α getText getId rendered data k
    have hres : resolveMatch getText data "" k = none := by
      rw [resolveMatch,
        if_pos (by rw [show ("" : String).toList = [] from rfl]; simp)]
    rw [goToMatchImpl, hres]

/-- Witness for `scan_termination` at concrete inputs. -/
theorem scan_termination_witness :
    (∃ c, countMatches "abcb" "b" = some c)
    ∧ (∃ r, findNthMatch "abcb" "b" 2 = some r)
    ∧ jsIndexOfFrom "abc".toList [] 1 = some 1 :=
  ⟨scan_termination.1 "abcb" "b" (by decide),
    scan_termination.2.1 "abcb" "b" 2 (by decide),
    scan_termination.2.2.1 "abc".toList 1 (by decide)⟩

/-!  ### C6: render reconciliation (phase 2 of `goToMatchImpl`)  -/

theorem findNthOcc_eq {text pat : List Char} (hpat : pat ≠ []) {n : Int}
    (hn : 1 ≤ n) :
    findNthOcc text pat n
      = ((scanPos text pat)[(n - 1).toNat]?).map (fun p => (p, p + pat.length)) := by
  rw [findNthOcc,
    findNthLoop_eq hpat n (text.length + 1) 0 0 (by omega) (by omega) (by omega)]
  rw [Option.getD_some, specFindNth_eq_getElem, List.drop_zero]
  rw [if_pos (by push_cast; omega)]
  have hmap : (scanPos text pat).map (· + 0) = scanPos text pat := by simp
  rw [hmap]
  simp only [Nat.cast_zero, sub_zero]

theorem findNthOcc_isSome {text pat : List Char} (hpat : pat ≠ []) {n : Int}
    (hn : 1 ≤ n) (hle : n ≤ (countOcc text pat : Int)) :
    (findNthOcc text pat n).isSome = true := by
  rw [findNthOcc_eq hpat hn]
  rw [countOcc_eq hpat, scanCount] at hle
  have hlt : (n - 1).toNat < (scanPos text pat).length := by omega
  obtain ⟨p, hp⟩ := Option.isSome_iff_exists.mp (getElem?_isSome_iff.mpr hlt)
  rw [hp]
  rfl

/-- A transcript item as phase 2 sees it: its searchable texts (data level),
its optional DOM id, and the text its rendered panel exposes. -/
structure RItem where
  texts : List String
  id : Option String
  rendered : String
  deriving DecidableEq

/-- The C6 scenario: the first item's data-level text contains the term three
times but its rendered panel exposes only one occurrence (a collapsed field);
the next item contains the term once, both at data and render level. -/
def c6Data : List RItem :=
  [⟨["abc abc abc"], some "e0", "abc"⟩, ⟨["abc"], some "e1", "x abc y"⟩]

/-- C6: if the resolved occurrence fits within the target item's rendered
occurrence count, navigation highlights exactly that occurrence of that item
and succeeds; and in the collapsed-field scenario (data-level count 3,
rendered count 1), requesting occurrence 2 of the first item advances to the
next item containing the term and highlights its first occurrence. -/
theorem reconcile_render_fallback :
    (∀ (α : Type) (getText : α → List String) (getId : α → Option String)
        (rendered : α → String) (data : List α) (term : String) (k : Int)
        (ti : Nat) (occ : Int) (item : α),
        resolveMatch getText data term k = some (ti, occ) →
        data[ti]? = some item →
        (getId item).isSome = true →
        occ ≤ (countOcc (panelText rendered item) (jsToLower term.toList) : Int) →
        goToMatchImpl getText getId rendered data term k = some (ti, occ))
    ∧ goToMatchImpl RItem.texts RItem.id RItem.rendered c6Data "abc" 2
        = some (1, 1) := by
  constructor
  · intro α getText getId rendered data term k ti occ item hres hitem hid hdom
    have hres0 := hres
    rw [resolveMatch] at hres0
    by_cases hg : (data.isEmpty || term.toList.isEmpty || decide (k < 1)) = true
    · rw [if_pos hg] at hres0
      exact absurd hres0 (by simp)
    · rw [if_neg hg] at hres0
      simp only [Bool.or_eq_true, decide_eq_true_eq, not_or] at hg
      have hterm' : term.toList ≠ [] := by
        intro h
        exact hg.1.2 (by rw [h]; rfl)
      have hpat : jsToLower term.toList ≠ [] := fun h => hterm' (jsToLower_eq_nil.mp h)
      have hk1 : 1 ≤ k := by omega
      have hocc1 : 1 ≤ occ :=
        resolveLoop_occ_pos getText term (jsToLower term.toList) k data 0 0
          (by omega) hres0
      have hti : ti < data.length := by
        rw [List.getElem?_eq_some] at hitem
        exact hitem.1
      have hdrop : data.drop ti = item :: data.drop (ti + 1) := by
        rw [List.drop_eq_getElem_cons hti]
        rw [List.getElem?_eq_some] at hitem
        obtain ⟨h1, h2⟩ := hitem
        rw [h2]
      obtain ⟨idv, hidv⟩ := Option.isSome_iff_exists.mp hid
      rw [goToMatchImpl, hres]
      simp only [hdrop, phase2Loop]
      rw [if_neg (by simp)]
      simp only [hidv]
      rw [if_pos ⟨hdom, findNthOcc_isSome hpat hocc1 hdom⟩]
  · decide

/-- Witness for the universally quantified half of `reconcile_render_fallback`
on the scenario data at occurrence 1 of the first item (which the rendered
panel does expose). -/
theorem reconcile_render_fallback_witness :
    resolveMatch RItem.texts c6Data "abc" 1 = some (0, 1)
    ∧ goToMatchImpl RItem.texts RItem.id RItem.rendered c6Data "abc" 1
        = some (0, 1) :=
  ⟨by decide,
    reconcile_render_fallback.1 RItem RItem.texts RItem.id RItem.rendered
      c6Data "abc" 1 0 1 ⟨["abc abc abc"], some "e0", "abc"⟩
      (by decide) (by decide) (by decide) (by decide)⟩

/-!  ### C7: navigation tokens and cancellation

`goToMatchImpl` suspends at every `await scrollToMatch(i)` and re-checks
`navTokenRef.current !== thisNav` immediately after resuming, before any
highlight is painted in that segment.  We model the event loop as a small-step
system: the synchronous prefix of a navigation (guards, token increment,
phase-1 resolution, the skip checks before the first `await`) is one atomic
`start` action, and each resumption after an `await` is one atomic `resume`
action that runs up to the next `await` (or to completion).  The highlight
register carries, as a ghost component, the token of the navigation that
painted it. -/

/-- The suspended state of one in-flight navigation: its token, term, the
phase-1 target, the remaining items (the head is the item whose scroll is
being awaited) with its index, and the remaining occurrence budget. -/
structure NavProc (α : Type) where
  token : Nat
  term : String
  targetIdx : Nat
  items : List α
  i : Nat
  occ : Int

inductive NavStatus (α : Type) where
  | pending (term : String) (absoluteIndex : Int) (data : List α)
  | waiting (p : NavProc α)
  | finished (result : Bool)

/-- The `continue` conditions of the phase-2 loop, run up to the next item on
which the loop awaits: skip an item when it is not the target and does not
contain the term, or when it has no id. -/
def skipAdvance {α : Type} (getText : α → List String) (getId : α → Option String)
    (term : String) (targetIdx : Nat) : List α → Nat → Option (List α × Nat)
  | [], _ => none
  | item :: rest, i =>
    if (i ≠ targetIdx ∧ ¬ searchInItem getText item term = true) ∨ getId item = none then
      skipAdvance getText getId term targetIdx rest (i + 1)
    else some (item :: rest, i)

/-- The synchronous prefix of `goToMatchImpl`: the guards run before the token
is incremented; a passing navigation takes the fresh token `navToken + 1`,
resolves phase 1, and advances to its first `await` (or finishes not-found). -/
def startNav {α : Type} (getText : α → List String) (getId : α → Option String)
    (navToken : Nat) (term : String) (k : Int) (data : List α) :
    Nat × NavStatus α :=
  if data.isEmpty || term.toList.isEmpty || decide (k < 1) then
    (navToken, .finished false)
  else
    match resolveLoop getText term (jsToLower term.toList) k data 0 0 with
    | none => (navToken + 1, .finished false)
    | some (ti, occ) =>
      match skipAdvance getText getId term ti (data.drop ti) ti with
      | none => (navToken + 1, .finished false)
      | some (items, i) =>
        (navToken + 1, .waiting ⟨navToken + 1, term, ti, items, i, occ⟩)

/-- One resumption after an `await`: first the token re-check (a differing
token abandons silently: not-found, no highlight), then the rendered count,
the highlight attempt — with the source's literal second token check after
painting — and otherwise the subtraction and the advance to the next await. -/
def resumeNav {α : Type} (getText : α → List String) (getId : α → Option String)
    (rendered : α → String) (navToken : Nat)
    (highlight : Option (Nat × Nat × Int)) (p : NavProc α) :
    NavStatus α × Option (Nat × Nat × Int) :=
  if navToken ≠ p.token then (.finished false, highlight)
  else
    match p.items with
    | [] => (.finished false, highlight)
    | item :: rest =>
      let text := panelText rendered item
      let lower := jsToLower p.term.toList
      let dom : Int := countOcc text lower
      if p.occ ≤ dom ∧ (findNthOcc text lower p.occ).isSome then
        if navToken ≠ p.token then (.finished false, some (p.token, p.i, p.occ))
        else (.finished true, some (p.token, p.i, p.occ))
      else
        match skipAdvance getText getId p.term p.targetIdx rest (p.i + 1) with
        | none => (.finished false, highlight)
        | some (items', i') =>
          (.waiting { p with items := items', i := i', occ := p.occ - dom }, highlight)

/-- The shared single-threaded state: the panel's `navTokenRef`, the status of
every navigation, and the current-match highlight (ghost-tagged with the token
of the navigation that painted it). -/
structure FindSys (α : Type) where
  navToken : Nat
  navs : Nat → NavStatus α
  highlight : Option (Nat × Nat × Int)

/-- The event-loop interleaving: at any moment a pending navigation may start,
or any waiting navigation may resume (its awaited scroll settled). -/
inductive NavStep {α : Type} (getText : α → List String) (getId : α → Option String)
    (rendered : α → String) : FindSys α → FindSys α → Prop
  | start (s : FindSys α) (j : Nat) (term : String) (k : Int) (data : List α)
      (hj : s.navs j = .pending term k data) :
      NavStep getText getId rendered s
        ⟨(startNav getText getId s.navToken term k data).1,
          Function.update s.navs j (startNav getText getId s.navToken term k data).2,
          s.highlight⟩
  | resume (s : FindSys α) (j : Nat) (p : NavProc α)
      (hj : s.navs j = .waiting p) :
      NavStep getText getId rendered s
        ⟨s.navToken,
          Function.update s.navs j
            (resumeNav getText getId rendered s.navToken s.highlight p).1,
          (resumeNav getText getId rendered s.navToken s.highlight p).2⟩

theorem startNav_fst {α : Type} (getText : α → List String) (getId : α → Option String)
    (navToken : Nat) (term : String) (k : Int) (data : List α) :
    navToken ≤ (startNav getText getId navToken term k data).1
    ∧ (startNav getText getId navToken term k data).1 ≤ navToken + 1 := by
  rw [startNav]
  split
  · exact ⟨le_rfl, by omega⟩
  · split
    · exact ⟨by omega, le_rfl⟩
    · split
      · exact ⟨by omega, le_rfl⟩
      · exact ⟨by omega, le_rfl⟩

theorem navStep_token_mono {α : Type} {getText : α → List String}
    {getId : α → Option String} {rendered : α → String} {s s' : FindSys α}
    (h : NavStep getText getId rendered s s') : s.navToken ≤ s'.navToken := by
  cases h with
  | start j term k data hj =>
    exact (startNav_fst getText getId s.navToken term k data).1
  | resume j p hj => exact le_rfl

/-- A stale resumption (token differs from the latest) finishes not-found and
leaves the highlight untouched. -/
theorem resumeNav_stale {α : Type} (getText : α → List String)
    (getId : α → Option String) (rendered : α → String) {navToken : Nat}
    (highlight : Option (Nat × Nat × Int)) {p : NavProc α}
    (h : navToken ≠ p.token) :
    resumeNav getText getId rendered navToken highlight p
      = (.finished false, highlight) := by
  rw [resumeNav, if_pos h]

/-- Any step that changes the highlight paints it with the current latest
token. -/
theorem navStep_paint_fresh {α : Type} {getText : α → List String}
    {getId : α → Option String} {rendered : α → String} {s s' : FindSys α}
    (h : NavStep getText getId rendered s s') (hch : s'.highlight ≠ s.highlight) :
    ∃ i occ, s'.highlight = some (s.navToken, i, occ) := by
  cases h with
  | start j term k data hj => exact absurd rfl hch
  | resume j p hj =>
    simp only at hch ⊢
    rw [resumeNav] at hch ⊢
    by_cases ht : s.navToken ≠ p.token
    · rw [if_pos ht] at hch
      exact absurd rfl hch
    · rw [if_neg ht] at hch ⊢
      push_neg at ht
      cases hitems : p.items with
      | nil => simp [hitems] at hch
      | cons item rest =>
        simp only [hitems] at hch ⊢
        by_cases hpaint :
            p.occ ≤ (countOcc (panelText rendered item) (jsToLower p.term.toList) : Int)
            ∧ (findNthOcc (panelText rendered item) (jsToLower p.term.toList) p.occ).isSome
              = true
        · refine ⟨p.i, p.occ, ?_⟩
          rw [if_pos hpaint, ht]
          split <;> rfl
        · rw [if_neg hpaint] at hch
          cases hskip : skipAdvance getText getId p.term p.targetIdx rest (p.i + 1) with
          | none => simp [hskip] at hch
          | some q =>
            obtain ⟨items', i'⟩ := q
            simp [hskip] at hch

theorem navStep_finished_false {α : Type} {getText : α → List String}
    {getId : α → Option String} {rendered : α → String} {s s' : FindSys α}
    (h : NavStep getText getId rendered s s') {j : Nat}
    (hj : s.navs j = .finished false) : s'.navs j = .finished false := by
  cases h with
  | start j' term k data hj' =>
    have hne : j' ≠ j := by
      intro he
      rw [he, hj] at hj'
      exact NavStatus.noConfusion hj'
    simp only [Function.update_noteq (Ne.symm hne)]
    exact hj
  | resume j' p hj' =>
    have hne : j' ≠ j := by
      intro he
      rw [he, hj] at hj'
      exact NavStatus.noConfusion hj'
    simp only [Function.update_noteq (Ne.symm hne)]
    exact hj

/-- One step preserves staleness: a navigation whose token is below the latest
either stays suspended unchanged or finishes not-found; it never repaints. -/
theorem navStep_stale_status {α : Type} {getText : α → List String}
    {getId : α → Option String} {rendered : α → String} {s s' : FindSys α}
    (h : NavStep getText getId rendered s s') {j : Nat} {p : NavProc α}
    (hj : s.navs j = .waiting p) (hstale : p.token < s.navToken) :
    (s'.navs j = .waiting p ∧ p.token < s'.navToken)
    ∨ s'.navs j = .finished false := by
  have hmono := navStep_token_mono h
  cases h with
  | start j' term k data hj' =>
    have hne : j' ≠ j := by
      intro he
      rw [he, hj] at hj'
      exact NavStatus.noConfusion hj'
    left
    constructor
    · simp only [Function.update_noteq (Ne.symm hne)]
      exact hj
    · omega
  | resume j' p' hj' =>
    by_cases he : j' = j
    · subst he
      rw [hj] at hj'
      have hp : p' = p := by
        cases hj'
        rfl
      subst hp
      right
      simp only [Function.update_same]
      rw [resumeNav_stale getText getId rendered s.highlight (by omega)]
    · left
      constructor
      · simp only [Function.update_noteq (Ne.symm he)]
        exact hj
      · omega

/-- C7: tokens are monotone (start assigns `navToken + 1`), and once a later
navigation has been issued, a stale navigation with a smaller token either
stays suspended or finishes not-found — it is never painted: along any
interleaved execution, no step applies a highlight carrying the stale token,
because every paint carries the latest token of its moment. -/
theorem nav_token_cancellation {α : Type} (getText : α → List String)
    (getId : α → Option String) (rendered : α → String) {s u : FindSys α}
    {j : Nat} {p : NavProc α}
    (hstar : Relation.ReflTransGen (NavStep getText getId rendered) s u)
    (hw : s.navs j = .waiting p) (hstale : p.token < s.navToken) :
    (u.navs j = .waiting p ∨ u.navs j = .finished false)
    ∧ p.token < u.navToken
    ∧ (∀ u', NavStep getText getId rendered u u' →
        ∀ i occ, u'.highlight = some (p.token, i, occ) →
          u.highlight = some (p.token, i, occ))
    ∧ (∀ v v' : FindSys α, NavStep getText getId rendered v v' →
        v.navToken ≤ v'.navToken) := by
  have hA : (u.navs j = .waiting p ∨ u.navs j = .finished false)
      ∧ p.token < u.navToken := by
    induction hstar with
    | refl => exact ⟨Or.inl hw, hstale⟩
    | tail hst hstep ih =>
      obtain ⟨hstat, htok⟩ := ih
      rcases hstat with hwj | hfj
      · rcases navStep_stale_status hstep hwj htok with ⟨h1, h2⟩ | hf
        · exact ⟨Or.inl h1, h2⟩
        · exact ⟨Or.inr hf, by have := navStep_token_mono hstep; omega⟩
      · exact ⟨Or.inr (navStep_finished_false hstep hfj),
          by have := navStep_token_mono hstep; omega⟩
  refine ⟨hA.1, hA.2, ?_, fun v v' hv => navStep_token_mono hv⟩
  intro u' hstep i occ hpt
  by_cases hch : u'.highlight = u.highlight
  · rw [hch] at hpt
    exact hpt
  · obtain ⟨i', occ', hfresh⟩ := navStep_paint_fresh hstep hch
    rw [hfresh] at hpt
    have hcontra : u.navToken = p.token := by
      simp only [Option.some.injEq, Prod.mk.injEq] at hpt
      exact hpt.1
    exact absurd hA.2 (by omega)

/-- A navigation suspended with token 1 after a second navigation has bumped
the latest token to 2. -/
def c7Proc : NavProc RItem := ⟨1, "abc", 0, c6Data, 0, 1⟩

def c7Sys : FindSys RItem := ⟨2, fun _ => .waiting c7Proc, none⟩

/-- Witness for `nav_token_cancellation` at the concrete superseded
navigation. -/
theorem nav_token_cancellation_witness :
    (c7Sys.navs 0 = .waiting c7Proc ∨ c7Sys.navs 0 = .finished false)
    ∧ c7Proc.token < c7Sys.navToken
    ∧ (∀ u', NavStep RItem.texts RItem.id RItem.rendered c7Sys u' →
        ∀ i occ, u'.highlight = some (c7Proc.token, i, occ) →
          c7Sys.highlight = some (c7Proc.token, i, occ))
    ∧ (∀ v v' : FindSys RItem, NavStep RItem.texts RItem.id RItem.rendered v v' →
        v.navToken ≤ v'.navToken) :=
  nav_token_cancellation RItem.texts RItem.id RItem.rendered
    Relation.ReflTransGen.refl rfl (by decide)

/-!  ### C8: the FindBand per-term count cache (FindBand / LiveVirtualList
FindBand, lines 612-615 and 649-657)  -/

/-- FindBand's `cachedCount` ref: the last term searched and the count then
computed (initially `{term: "", count: 0}`). -/
structure FindBandCache where
  term : String
  count : Nat
  deriving DecidableEq

/-- The counting prefix of `FindBand.handleSearch`: an empty term returns
early without consulting the cache; otherwise the cached count is reused when
the cached term equals the search term, else `countAllMatches` is recomputed
and stored.  The output reports the count used and whether it was reused. -/
def handleSearchCount {α : Type} (getText : α → List String) (data : List α)
    (cache : FindBandCache) (searchTerm : String) :
    FindBandCache × Option (Nat × Bool) :=
  if searchTerm.toList.isEmpty then (cache, none)
  else if cache.term = searchTerm then (cache, some (cache.count, true))
  else
    let total := countMatchesInData getText data searchTerm
    (⟨searchTerm, total⟩, some (total, false))

inductive FindBandEvent (α : Type) where
  | append (item : α)
  | search (term : String)

/-- One FindBand-relevant event: a live transcript append mutates the data and
leaves the cache untouched (the source has no invalidation path for data
mutation); a search runs the counting prefix. -/
def findBandStep {α : Type} (getText : α → List String)
    (st : List α × FindBandCache) :
    FindBandEvent α → (List α × FindBandCache) × Option (Nat × Bool)
  | .append item => ((st.1 ++ [item], st.2), none)
  | .search t =>
    ((st.1, (handleSearchCount getText st.1 st.2 t).1),
      (handleSearchCount getText st.1 st.2 t).2)

/-- Run a trace of events, returning the final state and the last event's
search output. -/
def findBandRun {α : Type} (getText : α → List String)
    (st : List α × FindBandCache) :
    List (FindBandEvent α) → (List α × FindBandCache) × Option (Nat × Bool)
  | [] => (st, none)
  | [ev] => findBandStep getText st ev
  | ev :: rest => findBandRun getText (findBandStep getText st ev).1 rest

/-- The cache agrees with the current data. -/
def cacheCoherent {α : Type} (getText : α → List String) (data : List α)
    (c : FindBandCache) : Prop :=
  c.term ≠ "" → c.count = countMatchesInData getText data c.term

/-- C8 counterexample: search "a" over one matching item (count 1, cached),
append another matching item, search "a" again: the cache is reused (`true`)
and reports 1, while `countAllMatches` over the current data is 2 — a data
mutation does not invalidate the cache. -/
theorem cache_stale_counterexample :
    (findBandRun id ([["a"]], ⟨"", 0⟩)
        [.search "a", .append ["a"], .search "a"]).2 = some (1, true)
    ∧ countMatchesInData id
        (findBandRun id ([["a"]], ⟨"", 0⟩)
          [.search "a", .append ["a"], .search "a"]).1.1 "a" = 2
    ∧ (1 : Nat) ≠ 2 := by
  refine ⟨by decide, by decide, by decide⟩

/-- C8 (amended): the cache is keyed on the term only — a search with a
changed term always recomputes, a reuse implies the term is unchanged, and a
search keeps the cache coherent with the data it ran over; but an append
leaves the cache untouched, so the reused value equals `countAllMatches` over
the current data only while the data is unchanged since the count was
cached. -/
theorem cache_term_keyed {α : Type} (getText : α → List String) (data : List α)
    (cache : FindBandCache) (t : String)
    (hcoh : cacheCoherent getText data cache) :
    (∀ n reused, (handleSearchCount getText data cache t).2 = some (n, reused) →
        n = countMatchesInData getText data t ∧ (reused = true → cache.term = t))
    ∧ (cache.term ≠ t →
        ∀ n reused, (handleSearchCount getText data cache t).2 = some (n, reused) →
          reused = false)
    ∧ cacheCoherent getText data (handleSearchCount getText data cache t).1
    ∧ (∀ item : α, (findBandStep getText (data, cache) (.append item)).1.2 = cache) := by
  rw [handleSearchCount]
  by_cases hempty : t.toList.isEmpty = true
  · rw [if_pos hempty]
    exact ⟨fun n reused h => absurd h (by simp), fun _ n reused h => absurd h (by simp),
      hcoh, fun item => rfl⟩
  · rw [if_neg hempty]
    have ht : t ≠ "" := by
      intro h
      exact hempty (by rw [h]; rfl)
    by_cases hhit : cache.term = t
    · rw [if_pos hhit]
      refine ⟨?_, ?_, hcoh, fun item => rfl⟩
      · intro n reused h
        simp only [Option.some.injEq, Prod.mk.injEq] at h
        obtain ⟨rfl, _⟩ := h
        exact ⟨by rw [hcoh (by rw [hhit]; exact ht), hhit], fun _ => hhit⟩
      · intro hne
        exact absurd hhit hne
    · rw [if_neg hhit]
      refine ⟨?_, ?_, ?_, fun item => rfl⟩
      · intro n reused h
        simp only [Option.some.injEq, Prod.mk.injEq] at h
        obtain ⟨rfl, hr⟩ := h
        exact ⟨rfl, fun hru => absurd (hr ▸ hru) (by simp)⟩
      · intro _ n reused h
        simp only [Option.some.injEq, Prod.mk.injEq] at h
        exact h.2.symm
      · intro _
        rfl

/-- Witness for `cache_term_keyed` at a coherent concrete cache. -/
theorem cache_term_keyed_witness :
    cacheCoherent id [["a"]] ⟨"a", 1⟩
    ∧ ((∀ n reused,
          (handleSearchCount id [["a"]] ⟨"a", 1⟩ "a").2 = some (n, reused) →
          n = countMatchesInData id [["a"]] "a" ∧ (reused = true → ("a" : String) = "a"))
      ∧ (("a" : String) ≠ "a" →
          ∀ n reused,
            (handleSearchCount id [["a"]] ⟨"a", 1⟩ "a").2 = some (n, reused) →
            reused = false)
      ∧ cacheCoherent id [["a"]] (handleSearchCount id [["a"]] ⟨"a", 1⟩ "a").1
      ∧ (∀ item : List String,
          (findBandStep id ([["a"]], ⟨"a", 1⟩) (.append item)).1.2 = ⟨"a", 1⟩)) :=
  ⟨fun _ => by decide, cache_term_keyed id [["a"]] ⟨"a", 1⟩ "a" (fun _ => by decide)⟩

/-!  ### C9: `eventSearchText` / `eventTitle`

The transcript's `EventNode` payloads (`eventSearchText.ts`, `event/utils.ts`,
`substituteToolCallContent.ts`).  JS exceptions are modelled with `Except`:
`Object.hasOwn(obj, key)` throws a `TypeError` when `obj` is `null` or
`undefined`, which the placeholder substitution `\x7b\x7b(\w+)\x7d\x7d` hits
for every placeholder match when `event.arguments` is null.  Argument values
and structured payloads are carried pre-stringified (`String(v)` /
`JSON.stringify` of sub-objects are pure and never throw, so this loses no
failure behaviour); the event variants modelled are those the claim's inputs
exercise — the remaining variants of the source's `switch` are straight-line
optional-field pushes of exactly the shapes modelled here. -/

inductive JsError where
  | typeError
  deriving DecidableEq

def isWordChar (c : Char) : Bool := c.isAlphanum || c = '_'

/-- `text.replace(/\x7b\x7b(\w+)\x7d\x7d/g, (match, key) =>
Object.hasOwn(args, key) ? String(args[key]) : match)`: scan left to right;
at each `\x7b\x7bword\x7d\x7d` match, throw when `args` is null, else
substitute the first binding of the key or keep the match verbatim.  The fuel
(one unit per consumed character) makes the recursion structural; the wrapper
passes the text length, which always suffices. -/
def substFuel (args : Option (List (String × String))) :
    Nat → List Char → Except JsError (List Char)
  | _, [] => .ok []
  | 0, text => .ok text
  | fuel + 1, '{' :: '{' :: rest =>
    match rest.span isWordChar with
    | (w, after) =>
      match w, after with
      | _ :: _, '}' :: '}' :: rest' =>
        match args with
        | none => .error .typeError
        | some fields => do
          let tail ← substFuel (some fields) fuel rest'
          match fields.lookup (String.mk w) with
          | some v => .ok (v.toList ++ tail)
          | none => .ok ('{' :: '{' :: (w ++ '}' :: '}' :: tail))
      | _, _ => do
        let tail ← substFuel args fuel ('{' :: rest)
        .ok ('{' :: tail)
  | fuel + 1, c :: rest => do
    let tail ← substFuel args fuel rest
    .ok (c :: tail)

def substPlaceholders (args : Option (List (String × String)))
    (text : List Char) : Except JsError (List Char) :=
  substFuel args text.length text

/-- `JSON.stringify` of an arguments record whose values are carried
pre-stringified. -/
def jsonStringifyArgs (fields : List (String × String)) : String :=
  "\x7b"
    ++ String.intercalate ","
        (fields.map (fun kv => "\"" ++ kv.1 ++ "\":" ++ kv.2))
    ++ "\x7d"

/-- `ToolCallContent` (title optional, content required). -/
structure ToolCallContent where
  title : Option String
  content : String

/-- The fields of `event.view` the search text extraction reads. -/
structure ToolView where
  title : Option String
  content : Option String

structure ToolEventData where
  function : String
  arguments : Option (List (String × String))
  result : Option String
  errorMessage : Option String
  view : Option ToolView

structure LoggerMessage where
  level : String
  message : Option String
  filename : Option String

inductive EventType where
  | tool (t : ToolEventData)
  | error (message : Option String) (traceback : Option String)
  | logger (message : LoggerMessage)
  | info (source : Option String) (data : Option String)
  | sampleLimit (type_ : String) (message : Option String)
  | approval (decision : String) (explanation : Option String)
  | sandbox (action : String) (cmd : Option String) (file : Option String)
      (input : Option String) (output : Option String)
  | unknown

/-- One transcript list item (`EventNode` of `transcript/types`). -/
structure EventNode where
  id : String
  event : EventType
  depth : Nat

def sampleLimitTitles : List (String × String) :=
  [("custom", "Custom Limit Exceeded"), ("time", "Time Limit Exceeded"),
    ("message", "Message Limit Exceeded"), ("token", "Token Limit Exceeded"),
    ("operator", "Operator Canceled"),
    ("working", "Execution Time Limit Exceeded"), ("cost", "Cost Limit Exceeded")]

def approvalDecisionLabels : List (String × String) :=
  [("approve", "Approved"), ("reject", "Rejected"), ("terminate", "Terminated"),
    ("escalate", "Escalated"), ("modify", "Modified")]

/-- `eventTitle` (event/utils.ts): for a tool event the view title (when
truthy) has its placeholders substituted from `event.arguments` — the path
that throws when `arguments` is null and the title contains a placeholder. -/
def eventTitle : EventType → Except JsError String
  | .tool t =>
    match t.view.bind ToolView.title with
    | some vt =>
      if vt.toList.isEmpty then .ok ("Tool: " ++ t.function)
      else do
        let subbed ← substPlaceholders t.arguments vt.toList
        .ok ("Tool: " ++ String.mk subbed)
    | none => .ok ("Tool: " ++ t.function)
  | .error _ _ => .ok "Error"
  | .logger m => .ok m.level
  | .info src _ =>
    .ok ("Info" ++ (match src with
      | some s => if s.toList.isEmpty then "" else ": " ++ s
      | none => ""))
  | .sampleLimit ty _ => .ok ((sampleLimitTitles.lookup ty).getD ty)
  | .approval d _ => .ok ((approvalDecisionLabels.lookup d).getD d)
  | .sandbox a _ _ _ _ => .ok ("Sandbox: " ++ a)
  | .unknown => .ok ""

/-- `substituteToolCallContent`: substitutes placeholders in the title (when
truthy) and in the content. -/
def substituteToolCallContent (args : Option (List (String × String)))
    (c : ToolCallContent) : Except JsError ToolCallContent := do
  let t' ← match c.title with
    | some ti =>
      if ti.toList.isEmpty then pure c.title
      else do
        pure (some (String.mk (← substPlaceholders args ti.toList)))
    | none => pure none
  let c' ← substPlaceholders args c.content.toList
  pure ⟨t', String.mk c'⟩

/-- JS `if (x) texts.push(x)` for an optional string (empty string falsy). -/
def pushIfTruthy : Option String → List String
  | some s => if s.toList.isEmpty then [] else [s]
  | none => []

/-- `eventSearchText` (eventSearchText.ts): the title, then the kind-specific
fields in render order. -/
def eventSearchText (node : EventNode) : Except JsError (List String) := do
  let event := node.event
  let title ← eventTitle event
  let texts0 := if title.toList.isEmpty then [] else [title]
  match event with
  | .tool t => do
    let l1 := pushIfTruthy (some t.function)
    let l2 := match t.arguments with
      | some fields => [jsonStringifyArgs fields]
      | none => []
    let l3 := pushIfTruthy t.result
    let l4 := pushIfTruthy t.errorMessage
    let l5 ← match t.view.bind ToolView.content with
      | some content =>
        if content.toList.isEmpty then pure ([] : List String)
        else do
          let subbed ← substituteToolCallContent t.arguments
            ⟨t.view.bind ToolView.title, content⟩
          pure [subbed.content]
      | none => pure ([] : List String)
    pure (texts0 ++ l1 ++ l2 ++ l3 ++ l4 ++ l5)
  | .error msg tb => pure (texts0 ++ pushIfTruthy msg ++ pushIfTruthy tb)
  | .logger m => pure (texts0 ++ pushIfTruthy m.message ++ pushIfTruthy m.filename)
  | .info _ data => pure (texts0 ++ pushIfTruthy data)
  | .sampleLimit _ msg => pure (texts0 ++ pushIfTruthy msg)
  | .approval _ expl => pure (texts0 ++ pushIfTruthy expl)
  | .sandbox _ cmd file input output =>
    pure (texts0 ++ pushIfTruthy cmd ++ pushIfTruthy file
      ++ pushIfTruthy input ++ pushIfTruthy output)
  | .unknown => pure texts0

/-- A tool event whose view title carries a placeholder while its arguments
are null — the payload combination C9 names. -/
def c9FailingNode : EventNode :=
  ⟨"event-1", .tool ⟨"bash", none, none, none,
    some ⟨some "Run \x7b\x7bcmd\x7d\x7d", none⟩⟩, 0⟩

def c9UnknownNode : EventNode := ⟨"event-2", .unknown, 0⟩

/-- C9 (code bug): `eventSearchText` is not total — on a tool event whose view
title contains the placeholder `\x7b\x7bcmd\x7d\x7d` and whose arguments are
null, `Object.hasOwn(event.arguments, "cmd")` inside the title substitution
throws a `TypeError` instead of returning a list (the spec requires every
payload variant to map to some list, never throwing; the unknown-variant case
does return the empty list, as the repository's own test asserts). -/
theorem eventSearchText_throws_on_null_arguments :
    eventSearchText c9FailingNode = .error .typeError
    ∧ eventSearchText c9UnknownNode = .ok [] := by
  refine ⟨by rfl, by rfl⟩

end InspectFind
